import Mathlib

/-!
Shallow embedding of `src/lisp.py`, a minimal bracket-delimited Lisp
interpreter: lexer (`tokenize`), recursive-descent parser
(`parse_expression`, `parse_program`), tree-walking evaluator (`evaluate`)
over a mutable environment, and the builtins of `standard_environment`.

Modelling conventions:
* Python ints, and the floats produced by real division `/`, are idealised
  as exact rationals (the spec itself asks for "a numeric type wide enough
  for `/`").
* The mutable `dict` environment is modelled by threading an association
  list through every evaluator call; the assignment `environment[name] =
  value` becomes a cons in front of the list, which is observationally
  equivalent for lookups.  The environment component of the result is
  threaded through error results as well, because a Python exception leaves
  the mutations already performed in place.
* Host exceptions (`KeyError`, `ZeroDivisionError`, `AttributeError`,
  `TypeError`) and each interpreter `raise Exception(...)` site are modelled
  by one constructor of `EvalErr` each, returned in `Except`.
* The values that can flow through the interpreter are the dataclass values
  `Symbol`, `Number`, `Function`, Python lists, plus the host values
  produced by builtins: `bool` (from the comparisons), `None` (returned by
  `print`), and the native callables stored in `standard_environment`;
  `Value` has one constructor for each.  Python `callable(x)` holds among
  these exactly for the native callables, i.e. the `builtin` constructor:
  the `Function` dataclass defines no `__call__`.
* The side effect of `print` (writing to stdout) is not modelled; its
  return value `None` is.
-/

namespace Lisp

/-- The native procedures held in `standard_environment`: the seven dict
entries of the source (note the source has no entry for a less-or-equal
operator). -/
inductive Builtin where
  | add | sub | mul | div | lt | gt | print
deriving DecidableEq

/-- Runtime values, from `Value = Symbol | Number | list['Value'] | Function`
together with the host values that builtins produce (Python `bool`, `None`)
and the native callables stored in the environment.  The `function`
constructor mirrors the `Function` dataclass exactly: it has fields
`parameters` and `body` and nothing else — in particular, no record of the
environment that was active when the `fn` form was evaluated. -/
inductive Value where
  | symbol (name : String)
  | number (value : ℚ)
  | list (items : List Value)
  | function (parameters : List String) (body : Value)
  | bool (b : Bool)
  | pyNone
  | builtin (b : Builtin)

/-- The environment: Python `dict[str, Value]`, modelled as an association
list (newest binding first). -/
abbrev Env := List (String × Value)

/-- Dictionary lookup `environment[name]` (`none` models `KeyError`). -/
def envLookup (name : String) : Env → Option Value
  | [] => none
  | (k, v) :: rest => if k = name then some v else envLookup name rest

/-- Dictionary assignment `environment[name] = value`, modelled by consing
the new binding in front (observationally equivalent for `envLookup`). -/
def envInsert (name : String) (value : Value) (env : Env) : Env :=
  (name, value) :: env

/-- The errors `evaluate` and the builtins can raise: one constructor per
`raise` site of the source plus the host exceptions the source can run
into. -/
inductive EvalErr where
  | keyError (name : String)
  | notAFunction (v : Value)
  | expectedParameterList (v : Value)
  | expectedParameterName (v : Value)
  | dontKnowHow (v : Value)
  | zeroDivisionError
  | attributeError (v : Value)
  | typeErrorArity

/-- Python attribute access `x.value`: only `Number` has a `value` field;
anything else raises `AttributeError`. -/
def numValue : Value → Except EvalErr ℚ
  | .number v => .ok v
  | v => .error (.attributeError v)

/-- The bodies of the seven lambdas of `standard_environment`.  Each
arithmetic and comparison lambda takes exactly two positional arguments
(another count raises a host `TypeError`); `print` accepts any number of
arguments and returns `None`.  Division `x.value / y.value` raises the host
`ZeroDivisionError` when the divisor is zero. -/
def applyBuiltin : Builtin → List Value → Except EvalErr Value
  | .add, [x, y] => do
    let a ← numValue x
    let b ← numValue y
    .ok (.number (a + b))
  | .sub, [x, y] => do
    let a ← numValue x
    let b ← numValue y
    .ok (.number (a - b))
  | .mul, [x, y] => do
    let a ← numValue x
    let b ← numValue y
    .ok (.number (a * b))
  | .div, [x, y] => do
    let a ← numValue x
    let b ← numValue y
    if b = 0 then .error .zeroDivisionError else .ok (.number (a / b))
  | .lt, [x, y] => do
    let a ← numValue x
    let b ← numValue y
    .ok (.bool (decide (a < b)))
  | .gt, [x, y] => do
    let a ← numValue x
    let b ← numValue y
    .ok (.bool (decide (a > b)))
  | .print, _ => .ok .pyNone
  | _, _ => .error .typeErrorArity

/-- The parameter-name extraction loop of the `fn` case: every element of
the parameter list must be a `Symbol`; the first offender raises. -/
def parameterNames : List Value → Except EvalErr (List String)
  | [] => .ok []
  | .symbol n :: rest => do
    let ns ← parameterNames rest
    .ok (n :: ns)
  | p :: _ => .error (.expectedParameterName p)

/-- Python truthiness (`if test_value:`) for the values the interpreter can
produce: dataclass instances (`Symbol`, `Number`, `Function`) are always
truthy, a list is truthy iff nonempty, a `bool` is itself, `None` is falsy,
and a native callable is truthy. -/
def truthy : Value → Bool
  | .symbol _ => true
  | .number _ => true
  | .list items => !items.isEmpty
  | .function _ _ => true
  | .bool b => b
  | .pyNone => false
  | .builtin _ => true

mutual

/-- The evaluator, mirroring the `match expression:` of the source case by
case and in the same order.  The second component of the result is the
environment after the call (the source mutates its dict in place, also when
an exception propagates). -/
def evaluate (expression : Value) (environment : Env) :
    Except EvalErr Value × Env :=
  match expression with
  | .number _ => (.ok expression, environment)
  | .symbol name =>
    match envLookup name environment with
    | some v => (.ok v, environment)
    | none => (.error (.keyError name), environment)
  | .list items =>
    match items with
    | [] => (.ok (.list []), environment)
    | [.symbol "define", .symbol name, expr] =>
      match evaluate expr environment with
      | (.ok value, env1) => (.ok value, envInsert name value env1)
      | (.error e, env1) => (.error e, env1)
    | [.symbol "if", test, thenExpr, elseExpr] =>
      match evaluate test environment with
      | (.ok tv, env1) =>
        if truthy tv then evaluate thenExpr env1 else evaluate elseExpr env1
      | (.error e, env1) => (.error e, env1)
    | [.symbol "fn", params, body] =>
      match params with
      | .list ps =>
        match parameterNames ps with
        | .ok names => (.ok (.function names body), environment)
        | .error e => (.error e, environment)
      | _ => (.error (.expectedParameterList params), environment)
    | head :: tail =>
      match evaluate head environment with
      | (.ok f, env1) =>
        match f with
        | .builtin b =>
          match evalArguments tail env1 with
          | (.ok args, env2) => (applyBuiltin b args, env2)
          | (.error e, env2) => (.error e, env2)
        | _ => (.error (.notAFunction f), env1)
      | (.error e, env1) => (.error e, env1)
  | .function _ _ => (.error (.dontKnowHow expression), environment)
  | .bool _ => (.error (.dontKnowHow expression), environment)
  | .pyNone => (.error (.dontKnowHow expression), environment)
  | .builtin _ => (.error (.dontKnowHow expression), environment)
termination_by sizeOf expression

/-- The list comprehension `[evaluate(expression, environment) for
expression in tail]`: the arguments are evaluated left to right, threading
the environment, and the first failure propagates. -/
def evalArguments (expressions : List Value) (environment : Env) :
    Except EvalErr (List Value) × Env :=
  match expressions with
  | [] => (.ok [], environment)
  | e :: rest =>
    match evaluate e environment with
    | (.ok v, env1) =>
      match evalArguments rest env1 with
      | (.ok vs, env2) => (.ok (v :: vs), env2)
      | (.error err, env2) => (.error err, env2)
    | (.error err, env1) => (.error err, env1)
termination_by sizeOf expressions

end

/-- The `standard_environment` dict of the source, verbatim: seven entries,
and none for a less-or-equal operator. -/
def standard_environment : Env :=
  [("+", .builtin .add), ("-", .builtin .sub), ("*", .builtin .mul),
   ("/", .builtin .div), ("<", .builtin .lt), (">", .builtin .gt),
   ("print", .builtin .print)]

/-- Python regex `\s` on the ASCII range (the script only ever contains
ASCII whitespace; the Unicode extras of `\s` are not modelled). -/
def isPySpace (c : Char) : Bool :=
  c = ' ' || c = '\t' || c = '\n' || c = '\r' || c = '\x0b' || c = '\x0c'

/-- A character that continues a plain (non-bracket) token under the regex
alternative `[^\[\]\s]+`. -/
def isPlainChar (c : Char) : Bool :=
  !(c = '[' || c = ']' || isPySpace c)

/-- The lexer `re.findall(r'\[|\]|[^\[\]\s]+', text)` on the character
list: a bracket is a one-character token, whitespace is skipped, and any
other character starts a maximal run of non-bracket non-whitespace
characters. -/
def tokenizeChars : List Char → List String
  | [] => []
  | c :: cs =>
    if c = '[' then "[" :: tokenizeChars cs
    else if c = ']' then "]" :: tokenizeChars cs
    else if isPySpace c then tokenizeChars cs
    else
      String.mk (c :: cs.takeWhile isPlainChar) ::
        tokenizeChars (cs.dropWhile isPlainChar)
termination_by cs => cs.length
decreasing_by
  all_goals
    simp only [List.length_cons]
    first
    | omega
    | exact Nat.lt_succ_of_le (List.dropWhile_suffix _).length_le

/-- `tokenize(text)` of the source. -/
def tokenize (text : String) : List String :=
  tokenizeChars text.data

/-- Python `tok.isdigit()` restricted to ASCII decimal digits, matching the
grammar `NUMBER := one or more decimal digits`. -/
def isdigitStr (s : String) : Bool :=
  !s.data.isEmpty && s.data.all Char.isDigit

/-- Python `int(tok)` on a string of decimal digits. -/
def strToNat (s : String) : ℕ :=
  s.data.foldl (fun n c => 10 * n + (c.toNat - 48)) 0

/-- The two failure modes of `parse_expression`: `Exception("Expecting ],
found end of program")` and `Exception("Unexpected ]")`. -/
inductive ParseErr where
  | unexpectedEndOfInput
  | unmatchedCloseBracket
deriving DecidableEq

mutual

/-- `parse_expression(tokens)` of the source: `none` when the token list is
empty (Python `return None`), otherwise the first expression and the
remaining tokens, or one of the two parse errors.  The remaining tokens are
returned together with the fact that at least one token was consumed, which
the source guarantees by construction. -/
def parse_expression : (tokens : List String) →
    Except ParseErr (Option (Value × { r : List String // r.length < tokens.length }))
  | [] => .ok none
  | t :: rest =>
    if t = "[" then
      match parse_items rest with
      | .error e => .error e
      | .ok (items, ⟨r, hr⟩) =>
        .ok (some (.list items, ⟨r, by
          simp only [List.length_cons]; omega⟩))
    else if t = "]" then .error .unmatchedCloseBracket
    else if isdigitStr t then
      .ok (some (.number ((strToNat t : ℕ) : ℚ), ⟨rest, by
        simp only [List.length_cons]; omega⟩))
    else
      .ok (some (.symbol t, ⟨rest, by
        simp only [List.length_cons]; omega⟩))
termination_by tokens => (tokens.length, 0)

/-- The `while tokens and tokens[0] != ']'` loop of `parse_expression`
together with the two `raise` checks and the final consumption of the
closing bracket: parses sub-expressions until a `]` is found and consumed,
and raises `unexpectedEndOfInput` if the tokens run out first. -/
def parse_items : (tokens : List String) →
    Except ParseErr (List Value × { r : List String // r.length < tokens.length })
  | [] => .error .unexpectedEndOfInput
  | t :: rest =>
    if t = "]" then
      .ok ([], ⟨rest, by simp only [List.length_cons]; omega⟩)
    else
      match parse_expression (t :: rest) with
      | .error e => .error e
      | .ok none => .error .unexpectedEndOfInput
      | .ok (some (v, ⟨r, hr⟩)) =>
        match parse_items r with
        | .error e => .error e
        | .ok (items, ⟨r2, hr2⟩) => .ok (v :: items, ⟨r2, by omega⟩)
termination_by tokens => (tokens.length, 1)

end

/-- `parse_program(tokens)`: repeatedly parse expressions until the tokens
run out, collecting the top-level values; any parse failure aborts the
whole program parse. -/
def parse_program : (tokens : List String) → Except ParseErr (List Value)
  | tokens =>
    match parse_expression tokens with
    | .error e => .error e
    | .ok none => .ok []
    | .ok (some (v, ⟨r, _hr⟩)) =>
      match parse_program r with
      | .error e => .error e
      | .ok items => .ok (v :: items)
termination_by tokens => tokens.length

/-! ## Parser lemmas -/

/-- Every failure of the bracket-list loop `parse_items`, and every failure
of `parse_expression` on a token list not starting with `]`, is
`unexpectedEndOfInput`: the `unmatchedCloseBracket` error arises only from
a leading close bracket.  Stated with an explicit length bound to drive the
strong induction that mirrors the mutual recursion of the parser. -/
theorem parse_error_is_eoi (n : ℕ) :
    ∀ ts : List String, ts.length ≤ n →
      ((∀ e, parse_items ts = .error e → e = .unexpectedEndOfInput) ∧
       (∀ t rest e, ts = t :: rest → t ≠ "]" →
         parse_expression ts = .error e → e = .unexpectedEndOfInput)) := by
  induction n with
  | zero =>
    intro ts hts
    have hnil : ts = [] := List.length_eq_zero.mp (Nat.le_zero.mp hts)
    subst hnil
    refine ⟨fun e he => ?_, fun t rest e heq => absurd heq (by simp)⟩
    simp only [parse_items] at he
    exact (by simpa using he : ParseErr.unexpectedEndOfInput = e).symm
  | succ n ih =>
    intro ts hts
    cases ts with
    | nil =>
      refine ⟨fun e he => ?_, fun t rest e heq => absurd heq (by simp)⟩
      simp only [parse_items] at he
      exact (by simpa using he : ParseErr.unexpectedEndOfInput = e).symm
    | cons t rest =>
      have hrest : rest.length ≤ n := by
        simp only [List.length_cons] at hts; omega
      have hexpr : ∀ e, t ≠ "]" →
          parse_expression (t :: rest) = .error e →
            e = .unexpectedEndOfInput := by
        intro e ht he
        simp only [parse_expression] at he
        by_cases hl : t = "["
        · rw [if_pos hl] at he
          split at he
          · rename_i e2 heq
            simp only [Except.error.injEq] at he
            exact he ▸ (ih rest hrest).1 e2 heq
          · simp at he
        · rw [if_neg hl, if_neg ht] at he
          by_cases hd : isdigitStr t = true
          · rw [if_pos hd] at he; simp at he
          · rw [if_neg hd] at he; simp at he
      refine ⟨fun e he => ?_, fun t2 rest2 e heq ht2 he => ?_⟩
      · simp only [parse_items] at he
        by_cases ht : t = "]"
        · rw [if_pos ht] at he; simp at he
        · rw [if_neg ht] at he
          split at he
          · rename_i e2 heq
            simp only [Except.error.injEq] at he
            exact he ▸ hexpr e2 ht heq
          · exact (by simpa using he :
              ParseErr.unexpectedEndOfInput = e).symm
          · rename_i v r hr heq
            split at he
            · rename_i e2 heq2
              simp only [Except.error.injEq] at he
              have hrn : r.length ≤ n := by
                simp only [List.length_cons] at hr; omega
              exact he ▸ (ih r hrn).1 e2 heq2
            · rename_i items2 r2 hr2 heq2
              simp at he
      · injection heq with h1 h2
        subst h1; subst h2
        exact hexpr e ht2 he

/-- When the parser succeeds it has consumed a prefix of the tokens whose
close brackets balance its open brackets: the loop `parse_items` consumes
exactly one more `]` than `[` (the closing bracket of the list it is
inside), and a whole expression consumes equally many.  Stated with an
explicit length bound to drive the strong induction. -/
theorem parse_consumed_counts (n : ℕ) :
    ∀ ts : List String, ts.length ≤ n →
      ((∀ items r, parse_items ts = .ok (items, r) →
         ∃ c, ts = c ++ r.val ∧ c.count "]" = c.count "[" + 1) ∧
       (∀ v r, parse_expression ts = .ok (some (v, r)) →
         ∃ c, ts = c ++ r.val ∧ c.count "]" = c.count "[")) := by
  induction n with
  | zero =>
    intro ts hts
    have hnil : ts = [] := List.length_eq_zero.mp (Nat.le_zero.mp hts)
    subst hnil
    constructor
    · intro items r h; simp only [parse_items] at h
      exact absurd h (by simp)
    · intro v r h; simp only [parse_expression] at h
      exact absurd h (by simp)
  | succ n ih =>
    intro ts hts
    cases ts with
    | nil =>
      constructor
      · intro items r h; simp only [parse_items] at h
        exact absurd h (by simp)
      · intro v r h; simp only [parse_expression] at h
        exact absurd h (by simp)
    | cons t rest =>
      have hrest : rest.length ≤ n := by
        simp only [List.length_cons] at hts; omega
      have hexpr : ∀ v r, parse_expression (t :: rest) = .ok (some (v, r)) →
          ∃ c, t :: rest = c ++ r.val ∧ c.count "]" = c.count "[" := by
        intro v r h
        simp only [parse_expression] at h
        by_cases hl : t = "["
        · rw [if_pos hl] at h
          split at h
          · rename_i e2 heq
            simp at h
          · rename_i items rr hrr heq
            simp only [Except.ok.injEq, Option.some.injEq,
              Prod.mk.injEq] at h
            obtain ⟨h1, h2⟩ := h
            have hrval : r.val = rr := congrArg Subtype.val h2.symm
            obtain ⟨cI, hcI, hcntI⟩ := (ih rest hrest).1 items ⟨rr, hrr⟩ heq
            refine ⟨t :: cI, ?_, ?_⟩
            · rw [hrval, List.cons_append, ← hcI]
            · subst hl
              simp [List.count_cons, hcntI]
        · rw [if_neg hl] at h
          by_cases ht : t = "]"
          · rw [if_pos ht] at h; simp at h
          · rw [if_neg ht] at h
            have hcnt : ([t] : List String).count "]" =
                ([t] : List String).count "[" := by
              simp [List.count_cons, ht, hl]
            by_cases hd : isdigitStr t = true
            · rw [if_pos hd] at h
              simp only [Except.ok.injEq, Option.some.injEq,
                Prod.mk.injEq] at h
              have hrval : r.val = rest := congrArg Subtype.val h.2.symm
              exact ⟨[t], by rw [hrval]; simp, hcnt⟩
            · rw [if_neg hd] at h
              simp only [Except.ok.injEq, Option.some.injEq,
                Prod.mk.injEq] at h
              have hrval : r.val = rest := congrArg Subtype.val h.2.symm
              exact ⟨[t], by rw [hrval]; simp, hcnt⟩
      refine ⟨fun items r h => ?_, hexpr⟩
      simp only [parse_items] at h
      by_cases ht : t = "]"
      · rw [if_pos ht] at h
        simp only [Except.ok.injEq, Prod.mk.injEq] at h
        have hrval : r.val = rest := congrArg Subtype.val h.2.symm
        refine ⟨[t], by rw [hrval]; simp, ?_⟩
        simp [List.count_cons, ht]
      · rw [if_neg ht] at h
        split at h
        · rename_i e2 heq
          simp at h
        · simp at h
        · rename_i v rr hrr heq
          split at h
          · rename_i e2 heq2
            simp at h
          · rename_i items2 rr2 hrr2 heq2
            simp only [Except.ok.injEq, Prod.mk.injEq] at h
            have hrval : r.val = rr2 := congrArg Subtype.val h.2.symm
            obtain ⟨cE, hcE, hcntE⟩ := hexpr v ⟨rr, hrr⟩ heq
            have hrrn : rr.length ≤ n := by
              simp only [List.length_cons] at hrr; omega
            obtain ⟨cI, hcI, hcntI⟩ :=
              (ih rr hrrn).1 items2 ⟨rr2, hrr2⟩ heq2
            refine ⟨cE ++ cI, ?_, ?_⟩
            · rw [hrval, List.append_assoc, ← hcI, ← hcE]
            · simp only [List.count_append]
              omega

/-! ## Sanity checks: the module-level example of the source -/

example :
    evaluate (.list [.symbol "+", .number 1, .number 2])
      standard_environment = (.ok (.number 3), standard_environment) := by
  simp [evaluate, evalArguments, envLookup, standard_environment,
    applyBuiltin, numValue, Bind.bind, Except.bind]
  norm_num

example : tokenize "[+ 1 2]" = ["[", "+", "1", "2", "]"] := by
  have h : "[+ 1 2]".data = ['[', '+', ' ', '1', ' ', '2', ']'] := rfl
  simp [tokenize, h, tokenizeChars, isPySpace, isPlainChar,
    List.takeWhile, List.dropWhile]

set_option maxRecDepth 4096 in
example :
    parse_program (tokenize "[+ 1 2]") =
      .ok [.list [.symbol "+", .number 1, .number 2]] := by
  have h : tokenize "[+ 1 2]" = ["[", "+", "1", "2", "]"] := by
    have hd : "[+ 1 2]".data = ['[', '+', ' ', '1', ' ', '2', ']'] := rfl
    simp [tokenize, hd, tokenizeChars, isPySpace, isPlainChar,
      List.takeWhile, List.dropWhile]
  rw [h]
  simp +decide [parse_program, parse_expression, parse_items, isdigitStr,
    strToNat]

/-! ## Claims -/

/-- C1: the claim says that `[[fn [x] [+ x 1]] 5]` evaluates to `Number(6)`
and that a user-defined `Function` at the head of an application is applied
by binding its parameters.  The code cannot do this: the application case
guards with Python `callable(function)`, which is false for the `Function`
dataclass (it defines no `__call__`), so evaluating this expression raises
`Exception("... is not a function")` instead, before any argument is
evaluated. -/
theorem apply_user_function_raises_not_a_function :
    evaluate (.list [.list [.symbol "fn", .list [.symbol "x"],
        .list [.symbol "+", .symbol "x", .number 1]], .number 5])
      standard_environment =
      (.error (.notAFunction (.function ["x"]
          (.list [.symbol "+", .symbol "x", .number 1]))),
       standard_environment) := by
  simp [evaluate, parameterNames, Bind.bind, Except.bind]

/-- C2: the claim says a well-formed `[fn paramsList body]` returns a
Function value that records, besides the parameter names and the
unevaluated body, the environment active at its creation time.  The code
does not: the `Function` dataclass (mirrored exactly by the two-field
`Value.function` constructor) stores only `parameters` and `body`, so the
value produced below carries no record of `standard_environment` or any
other frame. -/
theorem fn_returns_function_without_environment :
    evaluate (.list [.symbol "fn", .list [.symbol "x"],
        .list [.symbol "+", .symbol "x", .number 1]])
      standard_environment =
      (.ok (.function ["x"] (.list [.symbol "+", .symbol "x", .number 1])),
       standard_environment) := by
  simp [evaluate, parameterNames, Bind.bind, Except.bind]

/-- C3: the claim says the initial environment binds all of
`+ - * / < > <= print`, in particular that evaluating the symbol `<=` does
not fail with UnboundVariable.  The source dict has the other seven
entries but none for `<=`, so evaluating `<=` raises `KeyError`. -/
theorem stdenv_lacks_le :
    envLookup "<=" standard_environment = none ∧
    evaluate (.symbol "<=") standard_environment =
      (.error (.keyError "<="), standard_environment) ∧
    envLookup "+" standard_environment = some (.builtin .add) ∧
    envLookup "-" standard_environment = some (.builtin .sub) ∧
    envLookup "*" standard_environment = some (.builtin .mul) ∧
    envLookup "/" standard_environment = some (.builtin .div) ∧
    envLookup "<" standard_environment = some (.builtin .lt) ∧
    envLookup ">" standard_environment = some (.builtin .gt) ∧
    envLookup "print" standard_environment = some (.builtin .print) := by
  refine ⟨rfl, ?_, rfl, rfl, rfl, rfl, rfl, rfl, rfl⟩
  simp [evaluate, envLookup, standard_environment]

/-- C4, counterexample: the claim says every test value other than the
empty List — explicitly including the results of the comparison builtins —
selects the `then` branch.  But the comparison builtins return host
booleans and the code branches on Python truthiness, so the `False`
produced by `[< 2 1]` (which is not the empty List) selects the `else`
branch: `[if [< 2 1] 1 2]` evaluates to `Number(2)` where the claim
requires `Number(1)`. -/
theorem if_false_comparison_selects_else :
    evaluate (.list [.symbol "<", .number 2, .number 1])
      standard_environment = (.ok (.bool false), standard_environment) ∧
    Value.bool false ≠ Value.list [] ∧
    evaluate (.list [.symbol "if",
        .list [.symbol "<", .number 2, .number 1], .number 1, .number 2])
      standard_environment =
      (.ok (.number 2), standard_environment) := by
  have hlt : evaluate (.list [.symbol "<", .number 2, .number 1])
      standard_environment = (.ok (.bool false), standard_environment) := by
    simp [evaluate, evalArguments, envLookup, standard_environment,
      applyBuiltin, numValue, Bind.bind, Except.bind]
  refine ⟨hlt, by simp, ?_⟩
  simp [evaluate, hlt, truthy]

/-- C4, amended: `[if test then else]` first evaluates `test`; the branch
is chosen by Python truthiness, under which the empty List, the boolean
`False` returned by a failed comparison, and the `None` returned by `print`
are falsy, while every other value — including `Number(0)`, `True`, and any
nonempty List — is truthy.  (The empty List is not the only falsy
value.) -/
theorem if_dispatches_on_python_truthiness
    (test thenExpr elseExpr : Value) (env env1 : Env) (v : Value)
    (h : evaluate test env = (.ok v, env1)) :
    evaluate (.list [.symbol "if", test, thenExpr, elseExpr]) env =
      (if truthy v then evaluate thenExpr env1
       else evaluate elseExpr env1) ∧
    truthy (.number 0) = true ∧
    truthy (.bool true) = true ∧
    (∀ items, truthy (.list items) = !items.isEmpty) ∧
    truthy (.list []) = false ∧
    truthy (.bool false) = false ∧
    truthy .pyNone = false := by
  refine ⟨?_, rfl, rfl, fun items => rfl, rfl, rfl, rfl⟩
  simp only [evaluate, h]

/-- C4, witness for the amended theorem at a concrete input. -/
theorem if_dispatches_on_python_truthiness_witness :
    evaluate (.list [.symbol "if", .list [], .number 1, .number 2]) [] =
      (if truthy (.list []) then evaluate (.number 1) []
       else evaluate (.number 2) []) ∧
    truthy (.number 0) = true ∧
    truthy (.bool true) = true ∧
    (∀ items, truthy (.list items) = !items.isEmpty) ∧
    truthy (.list []) = false ∧
    truthy (.bool false) = false ∧
    truthy .pyNone = false :=
  if_dispatches_on_python_truthiness (.list []) (.number 1) (.number 2)
    [] [] (.list []) (by simp [evaluate])

/-- C5: `[define n e]` first evaluates `e` in `env` (possibly mutating the
frame), then binds `n` to the resulting value in the very frame that was
passed in, and returns that value; afterwards, evaluating the symbol `n`
in that environment yields the same value. -/
theorem define_binds_and_returns
    (n : String) (e : Value) (env env1 : Env) (v : Value)
    (h : evaluate e env = (.ok v, env1)) :
    evaluate (.list [.symbol "define", .symbol n, e]) env =
      (.ok v, envInsert n v env1) ∧
    evaluate (.symbol n) (envInsert n v env1) =
      (.ok v, envInsert n v env1) := by
  constructor
  · simp only [evaluate, h]
  · simp [evaluate, envLookup, envInsert]

/-- C5, witness: the example of the spec, `[define x 42]` in the standard
environment. -/
theorem define_binds_and_returns_witness :
    evaluate (.list [.symbol "define", .symbol "x", .number 42])
      standard_environment =
      (.ok (.number 42),
       envInsert "x" (.number 42) standard_environment) ∧
    evaluate (.symbol "x")
      (envInsert "x" (.number 42) standard_environment) =
      (.ok (.number 42),
       envInsert "x" (.number 42) standard_environment) :=
  define_binds_and_returns "x" (.number 42) standard_environment
    standard_environment (.number 42) (by simp [evaluate])

/-- C8, counterexample: the claim says that when evaluating `e` fails,
`[define n e]` fails leaving the environment mapping exactly as it was.
But a nested `define` inside `e` mutates the frame before the failure:
with `e = [+ [define m 1] y]` (`y` unbound), `[define n e]` fails with the
`KeyError` for `y`, yet the resulting environment now maps `m`, which was
unbound before the call. -/
theorem define_failure_still_mutates :
    evaluate (.list [.symbol "define", .symbol "n",
        .list [.symbol "+",
          .list [.symbol "define", .symbol "m", .number 1],
          .symbol "y"]])
      standard_environment =
      (.error (.keyError "y"),
       ("m", .number 1) :: standard_environment) ∧
    envLookup "m" standard_environment = none := by
  refine ⟨?_, rfl⟩
  simp [evaluate, evalArguments, envLookup, envInsert,
    standard_environment]

/-- C8, amended: when evaluating `e` in `env` fails, `[define n e]` fails
with the same error and performs no binding of its own — the resulting
environment is exactly the one the failed evaluation of `e` left behind
(which may already differ from `env` through nested `define`s inside
`e`). -/
theorem define_propagates_failure_without_own_binding
    (n : String) (e : Value) (env env1 : Env) (err : EvalErr)
    (h : evaluate e env = (.error err, env1)) :
    evaluate (.list [.symbol "define", .symbol n, e]) env =
      (.error err, env1) := by
  simp only [evaluate, h]

/-- C8, witness for the amended theorem at a concrete input. -/
theorem define_propagates_failure_witness :
    evaluate (.list [.symbol "define", .symbol "n", .symbol "y"]) [] =
      (.error (.keyError "y"), []) :=
  define_propagates_failure_without_own_binding "n" (.symbol "y") [] []
    (.keyError "y") (by simp [evaluate, envLookup])

/-- C9: a list headed by the symbol `define` whose element count is not
three is not special-form dispatched: it falls through to the general
application case, which evaluates the head `define` as a variable and (in
an environment that does not bind `define`, such as the standard one)
fails with the `KeyError` modelling UnboundVariable, without creating any
binding and without evaluating the remaining elements. -/
theorem define_wrong_arity_is_application
    (env : Env) (h : envLookup "define" env = none)
    (rest : List Value) (hlen : rest.length ≠ 2) :
    evaluate (.list (.symbol "define" :: rest)) env =
      (.error (.keyError "define"), env) := by
  match rest with
  | [] => simp [evaluate, h]
  | [a] => cases a <;> simp [evaluate, h]
  | [a, b] => exact absurd rfl hlen
  | a :: b :: c :: rest2 => cases a <;> simp [evaluate, h]

/-- C9, witness: `[define x]` in the standard environment. -/
theorem define_wrong_arity_witness :
    evaluate (.list [.symbol "define", .symbol "x"])
      standard_environment =
      (.error (.keyError "define"), standard_environment) :=
  define_wrong_arity_is_application standard_environment rfl
    [.symbol "x"] (by decide)

/-- C10: the division builtin is unguarded: in any environment binding `/`
to the division builtin, `[/ n 0]` raises the host `ZeroDivisionError`
(modelled by its own error constructor, distinct from every interpreter
error kind) rather than returning a Value. -/
theorem division_by_zero_raises
    (env : Env) (h : envLookup "/" env = some (.builtin .div)) (n : ℚ) :
    evaluate (.list [.symbol "/", .number n, .number 0]) env =
      (.error .zeroDivisionError, env) := by
  simp [evaluate, evalArguments, h, applyBuiltin, numValue,
    Bind.bind, Except.bind]

/-- C10, witness: `[/ 7 0]` in the standard environment. -/
theorem division_by_zero_raises_witness :
    evaluate (.list [.symbol "/", .number 7, .number 0])
      standard_environment =
      (.error .zeroDivisionError, standard_environment) :=
  division_by_zero_raises standard_environment rfl 7

/-- C6: the two failure modes of `parse_expression`.  A token sequence
beginning with an open bracket whose matching close bracket never comes —
no prefix of the following tokens contains more close than open brackets,
so the nesting depth never returns to zero before the tokens run out —
fails with `unexpectedEndOfInput`; a token sequence whose leading token is
`]` fails with `unmatchedCloseBracket`.  In both cases the result is a bare
`Except.error`, carrying no partial value. -/
theorem parse_expression_error_modes (ts : List String) :
    (∀ rest, ts = "[" :: rest →
      (∀ p ∈ rest.inits, p.count "]" ≤ p.count "[") →
      parse_expression ts = .error .unexpectedEndOfInput) ∧
    (∀ rest, ts = "]" :: rest →
      parse_expression ts = .error .unmatchedCloseBracket) := by
  constructor
  · rintro rest rfl hbal
    simp only [parse_expression]
    rw [if_pos trivial]
    cases hpi : parse_items rest with
    | error e =>
      have he : e = .unexpectedEndOfInput :=
        (parse_error_is_eoi rest.length rest le_rfl).1 e hpi
      simp [he]
    | ok pr =>
      obtain ⟨items, r, hr⟩ := pr
      obtain ⟨c, hc, hcnt⟩ :=
        (parse_consumed_counts rest.length rest le_rfl).1 items ⟨r, hr⟩ hpi
      have hpref : c ∈ rest.inits := (List.mem_inits _ _).mpr ⟨r, hc.symm⟩
      have hle := hbal c hpref
      omega
  · rintro rest rfl
    simp [parse_expression]

/-- C6, witness: the unterminated input `[ x` and the leading close
bracket `]`. -/
theorem parse_expression_error_modes_witness :
    parse_expression ["[", "x"] = .error .unexpectedEndOfInput ∧
    parse_expression ["]"] = .error .unmatchedCloseBracket :=
  ⟨(parse_expression_error_modes ["[", "x"]).1 ["x"] rfl (by decide),
   (parse_expression_error_modes ["]"]).2 [] rfl⟩

/-! ## Lexer lemmas -/

/-- Every token produced by the lexer is `[`, `]`, or a nonempty run of
non-bracket non-whitespace characters.  Stated with an explicit length
bound to drive the strong induction. -/
theorem tokenizeChars_shape (n : ℕ) :
    ∀ cs : List Char, cs.length ≤ n → ∀ t ∈ tokenizeChars cs,
      t = "[" ∨ t = "]" ∨
        (t.data ≠ [] ∧ ∀ c ∈ t.data, isPlainChar c = true) := by
  induction n with
  | zero =>
    intro cs hcs
    have hnil : cs = [] := List.length_eq_zero.mp (Nat.le_zero.mp hcs)
    subst hnil
    intro t ht
    simp [tokenizeChars] at ht
  | succ n ih =>
    intro cs hcs
    cases cs with
    | nil => intro t ht; simp [tokenizeChars] at ht
    | cons c cs =>
      have hlen : cs.length ≤ n := by
        simp only [List.length_cons] at hcs; omega
      intro t ht
      simp only [tokenizeChars] at ht
      by_cases h1 : c = '['
      · rw [if_pos h1] at ht
        rcases List.mem_cons.mp ht with h | h
        · exact Or.inl h
        · exact ih cs hlen t h
      · rw [if_neg h1] at ht
        by_cases h2 : c = ']'
        · rw [if_pos h2] at ht
          rcases List.mem_cons.mp ht with h | h
          · exact Or.inr (Or.inl h)
          · exact ih cs hlen t h
        · rw [if_neg h2] at ht
          by_cases h3 : isPySpace c = true
          · rw [if_pos h3] at ht
            exact ih cs hlen t ht
          · rw [if_neg h3] at ht
            rcases List.mem_cons.mp ht with h | h
            · subst h
              refine Or.inr (Or.inr ⟨by simp, ?_⟩)
              have h3f : isPySpace c = false := by simpa using h3
              show ∀ d ∈ c :: cs.takeWhile isPlainChar, isPlainChar d = true
              intro d hd
              rcases List.mem_cons.mp hd with rfl | hd2
              · simp [isPlainChar, h1, h2, h3f]
              · exact List.mem_takeWhile_imp hd2
            · have hdlen : (cs.dropWhile isPlainChar).length ≤ n :=
                le_trans (List.dropWhile_suffix _).length_le hlen
              exact ih _ hdlen t h

/-- Splitting a whitespace filter at the boundary of a maximal plain run:
the run itself survives the filter unchanged. -/
theorem filter_space_split (cs : List Char) :
    cs.filter (fun d => !isPySpace d) =
      cs.takeWhile isPlainChar ++
        (cs.dropWhile isPlainChar).filter (fun d => !isPySpace d) := by
  have hsplit : cs.takeWhile isPlainChar ++ cs.dropWhile isPlainChar = cs :=
    List.takeWhile_append_dropWhile _ cs
  conv_lhs => rw [← hsplit]
  rw [List.filter_append]
  congr 1
  refine List.filter_eq_self.mpr (fun a ha => ?_)
  have h := List.mem_takeWhile_imp ha
  simp only [isPlainChar, Bool.not_eq_true', Bool.or_eq_false_iff] at h
  simp [h.2]

/-- Concatenating the characters of all tokens recovers the input with
exactly its whitespace removed: the lexer keeps every non-whitespace
character, in input order.  Stated with an explicit length bound to drive
the strong induction. -/
theorem tokenizeChars_join (n : ℕ) :
    ∀ cs : List Char, cs.length ≤ n →
      ((tokenizeChars cs).map String.data).flatten =
        cs.filter (fun c => !isPySpace c) := by
  induction n with
  | zero =>
    intro cs hcs
    have hnil : cs = [] := List.length_eq_zero.mp (Nat.le_zero.mp hcs)
    subst hnil
    simp [tokenizeChars]
  | succ n ih =>
    intro cs hcs
    cases cs with
    | nil => simp [tokenizeChars]
    | cons c cs =>
      have hlen : cs.length ≤ n := by
        simp only [List.length_cons] at hcs; omega
      simp only [tokenizeChars]
      by_cases h1 : c = '['
      · rw [if_pos h1]
        subst h1
        simp only [List.map_cons, List.flatten_cons, ih cs hlen]
        simp [List.filter_cons, isPySpace]
      · rw [if_neg h1]
        by_cases h2 : c = ']'
        · rw [if_pos h2]
          subst h2
          simp only [List.map_cons, List.flatten_cons, ih cs hlen]
          simp [List.filter_cons, isPySpace]
        · rw [if_neg h2]
          by_cases h3 : isPySpace c = true
          · rw [if_pos h3]
            rw [ih cs hlen]
            simp [List.filter_cons, h3]
          · rw [if_neg h3]
            have h3f : isPySpace c = false := by simpa using h3
            have hdlen : (cs.dropWhile isPlainChar).length ≤ n :=
              le_trans (List.dropWhile_suffix _).length_le hlen
            simp only [List.map_cons, List.flatten_cons, ih _ hdlen]
            rw [List.filter_cons]
            simp only [h3f]
            rw [filter_space_split cs]
            rfl

/-- Taking while `p` holds over a run that satisfies `p` throughout, bounded
by a remainder whose first element (if any) refutes `p`, yields exactly the
run; dropping yields exactly the remainder. -/
theorem run_append_split (p : Char → Bool) :
    ∀ (run rest : List Char), (∀ c ∈ run, p c = true) →
      (∀ d, rest.head? = some d → p d = false) →
      (run ++ rest).takeWhile p = run ∧ (run ++ rest).dropWhile p = rest := by
  intro run
  induction run with
  | nil =>
    intro rest _ hbd
    cases rest with
    | nil => exact ⟨rfl, rfl⟩
    | cons d r =>
      have hd : p d = false := hbd d rfl
      simp [List.takeWhile_cons, List.dropWhile_cons, hd]
  | cons c run' ih =>
    intro rest hall hbd
    have hc : p c = true := hall c (List.mem_cons_self _ _)
    have hrec := ih rest (fun a ha => hall a (List.mem_cons_of_mem _ ha)) hbd
    simp [List.takeWhile_cons, List.dropWhile_cons, hc, hrec.1, hrec.2]

/-- Maximality of plain-run tokens: a nonempty run of non-bracket
non-whitespace characters that is followed by nothing or by a bracket or
whitespace character becomes exactly one token, never split, and lexing
continues after it. -/
theorem tokenizeChars_maximal_run :
    ∀ (run rest : List Char), run ≠ [] →
      (∀ c ∈ run, isPlainChar c = true) →
      (∀ d, rest.head? = some d → isPlainChar d = false) →
      tokenizeChars (run ++ rest) = String.mk run :: tokenizeChars rest := by
  intro run rest hne hall hbd
  cases run with
  | nil => exact absurd rfl hne
  | cons c run' =>
    have hc : isPlainChar c = true := hall c (List.mem_cons_self _ _)
    have hc' := hc
    simp only [isPlainChar, Bool.not_eq_true', Bool.or_eq_false_iff] at hc'
    have h1 : ¬ c = '[' := by simpa using hc'.1.1
    have h2 : ¬ c = ']' := by simpa using hc'.1.2
    have h3 : ¬ isPySpace c = true := by simp [hc'.2]
    have hsplit := run_append_split isPlainChar run' rest
      (fun a ha => hall a (List.mem_cons_of_mem _ ha)) hbd
    simp only [List.cons_append, tokenizeChars]
    rw [if_neg h1, if_neg h2, if_neg h3, hsplit.1, hsplit.2]

/-- C7: `tokenize` is a total function on strings; on the example it yields
exactly the spec token list (and on `"ab c[d"` the multi-character run
stays whole); every token is `[`, `]`, or a nonempty run of non-bracket
non-whitespace characters; concatenating the characters of the tokens
gives the input characters with exactly the whitespace removed (so the
tokens appear in input order and whitespace is dropped); and runs are
maximal: a nonempty run of non-bracket non-whitespace characters bounded
on the right by the end of input, a bracket, or whitespace is emitted as
one single token. -/
theorem tokenize_spec :
    tokenize "[+ 1 2]" = ["[", "+", "1", "2", "]"] ∧
    tokenize "ab c[d" = ["ab", "c", "[", "d"] ∧
    (∀ s : String, ∀ t ∈ tokenize s, t = "[" ∨ t = "]" ∨
      (t.data ≠ [] ∧ ∀ c ∈ t.data, isPlainChar c = true)) ∧
    (∀ s : String, ((tokenize s).map String.data).flatten =
      s.data.filter (fun c => !isPySpace c)) ∧
    (∀ (run rest : List Char), run ≠ [] →
      (∀ c ∈ run, isPlainChar c = true) →
      (∀ d, rest.head? = some d → isPlainChar d = false) →
      tokenizeChars (run ++ rest) = String.mk run :: tokenizeChars rest) := by
  refine ⟨?_, ?_, fun s => tokenizeChars_shape s.data.length s.data le_rfl,
    fun s => tokenizeChars_join s.data.length s.data le_rfl,
    tokenizeChars_maximal_run⟩
  · have h : "[+ 1 2]".data = ['[', '+', ' ', '1', ' ', '2', ']'] := rfl
    simp [tokenize, h, tokenizeChars, isPySpace, isPlainChar,
      List.takeWhile, List.dropWhile]
  · have h : "ab c[d".data = ['a', 'b', ' ', 'c', '[', 'd'] := rfl
    simp [tokenize, h, tokenizeChars, isPySpace, isPlainChar,
      List.takeWhile, List.dropWhile]

/-- C7, witness for the quantified conjuncts at concrete inputs, including
the maximality conjunct at the run `ab` bounded by a space. -/
theorem tokenize_spec_witness :
    ("ab" = "[" ∨ "ab" = "]" ∨ ("ab".data ≠ [] ∧
      ∀ c ∈ "ab".data, isPlainChar c = true)) ∧
    ((tokenize "x y").map String.data).flatten =
      "x y".data.filter (fun c => !isPySpace c) ∧
    tokenizeChars (['a', 'b'] ++ [' ', 'c']) =
      String.mk ['a', 'b'] :: tokenizeChars [' ', 'c'] := by
  refine ⟨?_, tokenize_spec.2.2.2.1 "x y",
    tokenize_spec.2.2.2.2 ['a', 'b'] [' ', 'c'] (by simp) (by decide) ?_⟩
  · refine tokenize_spec.2.2.1 "ab" "ab" ?_
    have h : "ab".data = ['a', 'b'] := rfl
    simp [tokenize, h, tokenizeChars, isPySpace, isPlainChar,
      List.takeWhile, List.dropWhile]
  · intro d hd
    simp only [List.head?_cons, Option.some.injEq] at hd
    subst hd
    decide

end Lisp
